import Mathlib

/-!
Verification development for the aggregation engine of the Peloton codegen
layer (src/include/codegen/aggregation.h).  The header declares the class
`Aggregation` with operations `Setup`, `CreateInitialGlobalValues`,
`CreateInitialValues`, `AdvanceValues`, `DoAdvanceValue`, `FinalizeValues`,
`GetAggregatesStorageSize`, `GetAggregateStorage`, and the nested struct
`AggregateInfo` with fields `aggregate_type`, `type`, `source_index`,
`storage_index`, `is_internal`.  The method bodies live in a translation
unit that is not part of the sources, so the behaviour of every operation
is modelled from the specification, anchored to the declarations and the
explanatory comments of the header.

SQL values are embedded as `Option Int` (`none` is the SQL NULL), the
storage buffer as a list of slot values addressed by `storage_index`, and
the external storage-layout builder as a list of slot types whose reported
size is the sum of the per-type byte sizes.  The state-threading shape of
`AdvanceValues` and `FinalizeValues` (each returns the `Aggregation`
configuration alongside its buffer/result) mirrors the fact that the C++
methods receive `this` and a storage pointer and are declared `const`.
-/

namespace Peloton

/-- Aggregate kinds handled by the engine (the relevant constructors of
Peloton's `ExpressionType` enum). -/
inductive ExpressionType
  | AggregateCount
  | AggregateCountStar
  | AggregateSum
  | AggregateMin
  | AggregateMax
  | AggregateAvg
deriving DecidableEq, Repr

/-- SQL data types relevant to the engine, with their storage byte sizes
(the external storage-layout builder is consumed as a black box that sums
per-slot sizes). -/
inductive TypeId
  | Integer
  | BigInt
  | Decimal
deriving DecidableEq, Repr

/-- Byte size a storage slot of this type occupies in the layout. -/
def TypeId.size : TypeId → Nat
  | .Integer => 4
  | .BigInt => 8
  | .Decimal => 8

/-- Identity of an input expression, used only for the sharing lookup
(two terms aggregate the same input exactly when the handles are equal). -/
abbrev Expr := Nat

/-- Aggregate term descriptor supplied by the caller
(`planner::AggregatePlan::AggTerm`): kind, input value type, optional input
expression, distinct flag. -/
structure AggTerm where
  agg_type : ExpressionType
  value_type : TypeId
  expression : Option Expr
  distinct : Bool
deriving DecidableEq, Repr

/-- Mapping from one physically stored aggregate to the higher-level
aggregate it realizes, mirroring `Aggregation::AggregateInfo` from the
header: aggregate kind, SQL type, position in the caller's original term
list, position in the physical storage space, and whether the slot is
internal (unknown to the caller). -/
structure AggregateInfo where
  aggregate_type : ExpressionType
  type : TypeId
  source_index : Nat
  storage_index : Nat
  is_internal : Bool
deriving DecidableEq, Repr

/-- Modelled from the spec: the Decomposition Planner's mapping from each
logical term back to the physical slot(s) that realize it.  A `simple`
term is realized by one slot of its own kind; an `average` term is
realized purely by its SUM and COUNT component slots. -/
inductive TermPlan
  | simple (kind : ExpressionType) (storage_index : Nat)
  | average (sum_index : Nat) (count_index : Nat)
deriving DecidableEq, Repr

/-- The aggregation engine configuration fixed by `Setup`: the
global/grouped flag, the physical slot descriptors, the per-term
realization plans, and the storage layout (ordered slot types). -/
structure Aggregation where
  is_global_ : Bool
  aggregate_infos_ : List AggregateInfo
  term_plans_ : List TermPlan
  storage_ : List TypeId
deriving DecidableEq, Repr

/-- Setup failures on malformed term lists: empty list, a value-based term
lacking its required input expression, or a COUNT-STAR term carrying one. -/
inductive SetupError
  | emptyTermList
  | missingInputExpression (source_index : Nat)
  | countStarHasExpression (source_index : Nat)
deriving DecidableEq, Repr

/-- SQL value carried through the engine; `none` is the SQL NULL. -/
abbrev Value := Option Int

/-- Storage buffer for one aggregation group: one value per physical slot,
addressed by `storage_index`. -/
abbrev Buffer := List Value

/-- Physical value type of every COUNT/COUNT-STAR slot: an integral
counter regardless of the input type. -/
def countType : TypeId := .BigInt

/-- Modelled from the spec: intermediate state of the Decomposition
Planner while it walks the term list — physical slots so far, per-term
plans so far, the storage layout under construction, and the sharing
lookup keyed by `(kind, input expression identity)`. -/
structure SetupState where
  infos : List AggregateInfo
  plans : List TermPlan
  slots : List TypeId
  lookup : List ((ExpressionType × Option Expr) × Nat)
deriving DecidableEq, Repr

/-- Sharing lookup: first registered slot for the given
`(kind, input expression)` key, if any. -/
def findSlot (lookup : List ((ExpressionType × Option Expr) × Nat))
    (key : ExpressionType × Option Expr) : Option Nat :=
  match lookup with
  | [] => none
  | (k, v) :: rest => if k = key then some v else findSlot rest key

/-- Clear the internal flag of the physical slot stored at the given
storage index (a caller-visible term now refers to it). -/
def clearInternal (infos : List AggregateInfo) (idx : Nat) :
    List AggregateInfo :=
  infos.map fun info =>
    if info.storage_index = idx then { info with is_internal := false }
    else info

/-- Modelled from the spec: resolve one physical slot for a term of the
given kind over the given input expression.  A hit in the sharing lookup
reuses the existing slot (and, for a caller-visible requester, marks it
not internal); a miss allocates a fresh slot at the next storage index and
registers it in the lookup. -/
def resolveSlot (st : SetupState) (kind : ExpressionType) (ty : TypeId)
    (oe : Option Expr) (src : Nat) (internal : Bool) : Nat × SetupState :=
  match findSlot st.lookup (kind, oe) with
  | some idx =>
      if internal then (idx, st)
      else (idx, { st with infos := clearInternal st.infos idx })
  | none =>
      let idx := st.slots.length
      (idx, { st with
              infos := st.infos ++ [⟨kind, ty, src, idx, internal⟩],
              slots := st.slots ++ [ty],
              lookup := ((kind, oe), idx) :: st.lookup })

/-- Modelled from the spec: plan one caller-visible term that needs exactly
one physical slot of its own kind (COUNT, COUNT-STAR, MIN, MAX, SUM). -/
def visibleStep (st : SetupState) (kind : ExpressionType) (ty : TypeId)
    (oe : Option Expr) (src : Nat) : SetupState :=
  let r := resolveSlot st kind ty oe src false
  { r.2 with plans := r.2.plans ++ [.simple kind r.1] }

/-- Modelled from the spec: process one aggregate term during setup.
COUNT/COUNT-STAR slots use the integral counter type; AVERAGE decomposes
into a SUM slot and a COUNT slot over the same input expression (reusing
existing ones via the sharing lookup, else allocating internal ones) and
allocates no physical slot of its own kind. -/
def processTerm (st : SetupState) (src : Nat) (term : AggTerm) :
    Except SetupError SetupState :=
  match term.agg_type with
  | .AggregateCountStar =>
      if term.expression.isSome then .error (.countStarHasExpression src)
      else .ok (visibleStep st .AggregateCountStar countType none src)
  | .AggregateCount =>
      match term.expression with
      | none => .error (.missingInputExpression src)
      | some e =>
          .ok (visibleStep st .AggregateCount countType (some e) src)
  | .AggregateSum =>
      match term.expression with
      | none => .error (.missingInputExpression src)
      | some e =>
          .ok (visibleStep st .AggregateSum term.value_type (some e) src)
  | .AggregateMin =>
      match term.expression with
      | none => .error (.missingInputExpression src)
      | some e =>
          .ok (visibleStep st .AggregateMin term.value_type (some e) src)
  | .AggregateMax =>
      match term.expression with
      | none => .error (.missingInputExpression src)
      | some e =>
          .ok (visibleStep st .AggregateMax term.value_type (some e) src)
  | .AggregateAvg =>
      match term.expression with
      | none => .error (.missingInputExpression src)
      | some e =>
          let rs := resolveSlot st .AggregateSum term.value_type (some e)
            src true
          let rc := resolveSlot rs.2 .AggregateCount countType (some e)
            src true
          .ok { rc.2 with plans := rc.2.plans ++ [.average rs.1 rc.1] }

/-- Modelled from the spec: walk the term list in source order, threading
the planner state; `src` is the source index of the next term. -/
def setupLoop (st : SetupState) (src : Nat) :
    List AggTerm → Except SetupError SetupState
  | [] => .ok st
  | t :: ts =>
      match processTerm st src t with
      | .error e => .error e
      | .ok st1 => setupLoop st1 (src + 1) ts

/-- Modelled from the spec: `Aggregation::Setup` — the Decomposition
Planner.  Fails on an empty term list or any malformed term; otherwise
fixes the physical slot list, the per-term plans and the storage layout
for the engine's lifetime. -/
def Setup (agg_terms : List AggTerm) (is_global : Bool) :
    Except SetupError Aggregation :=
  if agg_terms.isEmpty then .error .emptyTermList
  else
    match setupLoop ⟨[], [], [], []⟩ 0 agg_terms with
    | .error e => .error e
    | .ok st => .ok ⟨is_global, st.infos, st.plans, st.slots⟩

/-- Modelled from the spec: zero-knowledge initial value of one physical
slot for a global aggregation over zero rows — COUNT/COUNT-STAR get 0,
everything else gets NULL. -/
def nullInitialValue : ExpressionType → Value
  | .AggregateCount => some 0
  | .AggregateCountStar => some 0
  | _ => none

/-- Modelled from the spec: `Aggregation::CreateInitialGlobalValues` —
write the zero-row identity into every physical slot.  Returns the (const)
engine configuration together with the freshly written buffer. -/
def CreateInitialGlobalValues (agg : Aggregation) : Aggregation × Buffer :=
  agg.aggregate_infos_.foldl
    (fun s info => (s.1, s.2 ++ [nullInitialValue info.aggregate_type]))
    (agg, [])

/-- Modelled from the spec: first-row seed of one physical slot — COUNT
gets 1 on a non-null seed else 0, COUNT-STAR always gets 1, SUM/MIN/MAX
get the seeding value unchanged. -/
def seedValue (kind : ExpressionType) (v : Value) : Value :=
  match kind with
  | .AggregateCount => some (if v.isSome then 1 else 0)
  | .AggregateCountStar => some 1
  | _ => v

/-- Modelled from the spec: `Aggregation::CreateInitialValues` — seed
every physical slot from the caller's vector of per-term first-row values
(one value per logical term, addressed through `source_index`). -/
def CreateInitialValues (agg : Aggregation) (initial : List Value) :
    Aggregation × Buffer :=
  agg.aggregate_infos_.foldl
    (fun s info =>
      (s.1, s.2 ++ [seedValue info.aggregate_type
        (initial.getD info.source_index none)]))
    (agg, [])

/-- Modelled from the spec: null-aware update of one stored slot value by
the next input value, per aggregate kind. -/
def advanceOne (kind : ExpressionType) (cur next : Value) : Value :=
  match kind with
  | .AggregateCount =>
      match next with
      | none => cur
      | some _ => some (cur.getD 0 + 1)
  | .AggregateCountStar => some (cur.getD 0 + 1)
  | .AggregateSum =>
      match cur, next with
      | c, none => c
      | none, some v => some v
      | some c, some v => some (c + v)
  | .AggregateMin =>
      match cur with
      | none => next
      | some c =>
          match next with
          | some v => if v < c then some v else some c
          | none => some c
  | .AggregateMax =>
      match cur with
      | none => next
      | some c =>
          match next with
          | some v => if c < v then some v else some c
          | none => some c
  | .AggregateAvg => cur

/-- Modelled from the spec: `Aggregation::DoAdvanceValue` — fold the next
input value into the slot described by one `AggregateInfo`. -/
def DoAdvanceValue (buf : Buffer) (info : AggregateInfo) (next : Value) :
    Buffer :=
  buf.set info.storage_index
    (advanceOne info.aggregate_type
      (buf.getD info.storage_index none) next)

/-- Modelled from the spec: `Aggregation::AdvanceValues` — advance every
physical slot by the next row's per-term values (one value per logical
term in source order; a decomposed term's single value is routed to each
of its component slots through `source_index`).  Returns the (const)
engine configuration together with the updated buffer. -/
def AdvanceValues (agg : Aggregation) (buf : Buffer) (next : List Value) :
    Aggregation × Buffer :=
  agg.aggregate_infos_.foldl
    (fun s info =>
      (s.1, DoAdvanceValue s.2 info (next.getD info.source_index none)))
    (agg, buf)

/-- Read one slot of the storage buffer; the buffer is threaded through to
make the read-only nature of finalization a provable statement. -/
def readSlot (buf : Buffer) (i : Nat) : Buffer × Value :=
  (buf, buf.getD i none)

/-- Modelled from the spec: finalize one logical term from its plan — a
simple term copies its slot's stored value verbatim, an AVERAGE term reads
its SUM slot `s` and COUNT slot `c` and yields NULL when `s` is NULL or
`c` is 0, else `s / c`. -/
def finalizePlan (buf : Buffer) : TermPlan → Buffer × Value
  | .simple _ i => readSlot buf i
  | .average s c =>
      let rs := readSlot buf s
      let rc := readSlot rs.1 c
      (rc.1,
        match rs.2, rc.2 with
        | some sv, some cv => if cv = 0 then none else some (sv / cv)
        | _, _ => none)

/-- Pure view of `finalizePlan`: the value it produces for one plan. -/
def finalizeVal (buf : Buffer) : TermPlan → Value
  | .simple _ i => buf.getD i none
  | .average s c =>
      match buf.getD s none, buf.getD c none with
      | some sv, some cv => if cv = 0 then none else some (sv / cv)
      | _, _ => none

/-- Modelled from the spec: `Aggregation::FinalizeValues` — emit one result
value per original logical term, in source order, by finalizing each
term's plan.  Returns the (const) engine configuration, the storage buffer
after all reads, and the result vector. -/
def FinalizeValues (agg : Aggregation) (storage_space : Buffer) :
    Aggregation × Buffer × List Value :=
  agg.term_plans_.foldl
    (fun s plan =>
      let r := finalizePlan s.2.1 plan
      (s.1, r.1, s.2.2 ++ [r.2]))
    (agg, storage_space, [])

/-- Total number of bytes needed to store all configured aggregates
(`Aggregation::GetAggregatesStorageSize`). -/
def GetAggregatesStorageSize (agg : Aggregation) : Nat :=
  (agg.storage_.map TypeId.size).sum

/-- Storage format of the configured aggregates
(`Aggregation::GetAggregateStorage`). -/
def GetAggregateStorage (agg : Aggregation) : List TypeId :=
  agg.storage_

/-- Advance a buffer by a sequence of rows, one `AdvanceValues` call per
row. -/
def advanceAll (agg : Aggregation) (buf : Buffer)
    (rows : List (List Value)) : Buffer :=
  rows.foldl (fun b row => (AdvanceValues agg b row).2) buf

/-- Run a whole global aggregation: setup, zero-knowledge initialization,
one advance per row, finalization.  `none` when setup fails. -/
def runGlobal (terms : List AggTerm) (rows : List (List Value)) :
    Option (List Value) :=
  match Setup terms true with
  | .error _ => none
  | .ok agg =>
      some (FinalizeValues agg
        (advanceAll agg (CreateInitialGlobalValues agg).2 rows)).2.2

/-- Run a global aggregation but return the raw storage buffer after all
advances instead of the finalized results. -/
def runGlobalBuffer (terms : List AggTerm) (rows : List (List Value)) :
    Option Buffer :=
  match Setup terms true with
  | .error _ => none
  | .ok agg =>
      some (advanceAll agg (CreateInitialGlobalValues agg).2 rows)

/-- Physical slot descriptors produced by a successful setup. -/
def setupInfos (terms : List AggTerm) (is_global : Bool) :
    Option (List AggregateInfo) :=
  match Setup terms is_global with
  | .error _ => none
  | .ok agg => some agg.aggregate_infos_

/-- Input expression a term contributes to the shared SUM slot, when it
reduces to a SUM (a SUM term or the SUM component of an AVERAGE). -/
def sumExprOf (t : AggTerm) : Option Expr :=
  match t.agg_type with
  | .AggregateSum => t.expression
  | .AggregateAvg => t.expression
  | _ => none

/-- Storage index of the SUM slot a plan reads, when it has one. -/
def planSumIdx : TermPlan → Option Nat
  | .simple .AggregateSum i => some i
  | .simple _ _ => none
  | .average s _ => some s

/-- A plan has the shape demanded by its term's kind: a non-AVERAGE term
gets a simple plan of its own kind, an AVERAGE term gets a decomposed
plan. -/
def kindMatch (k : ExpressionType) : TermPlan → Prop
  | .simple k' _ => k' = k ∧ k ≠ .AggregateAvg
  | .average _ _ => k = .AggregateAvg

/-- Well-formedness of a plan against the physical slot list: a simple
plan points at an existing, caller-visible slot of its kind; a decomposed
plan points at an existing SUM slot and an existing COUNT slot. -/
def planWF (infos : List AggregateInfo) : TermPlan → Prop
  | .simple k i =>
      ∃ info, infos[i]? = some info ∧ info.aggregate_type = k ∧
        info.is_internal = false
  | .average s c =>
      (∃ info, infos[s]? = some info ∧
        info.aggregate_type = .AggregateSum) ∧
      (∃ info, infos[c]? = some info ∧
        info.aggregate_type = .AggregateCount)

/-- Invariants of the planner state that do not mention the plans: slots
sit at their own storage index, no slot is of AVERAGE kind, source indices
stay below `bound`, and every lookup entry names an existing slot of the
key's kind. -/
structure CoreInv (bound : Nat) (st : SetupState) : Prop where
  infos_len : st.infos.length = st.slots.length
  infos_idx : ∀ (i : Nat) (info : AggregateInfo), st.infos[i]? = some info →
      info.storage_index = i ∧ info.aggregate_type ≠ .AggregateAvg ∧
      info.source_index < bound
  lookup_sound : ∀ (k : ExpressionType) (oe : Option Expr) (idx : Nat),
      findSlot st.lookup (k, oe) = some idx →
      ∃ info, st.infos[idx]? = some info ∧ info.aggregate_type = k

/-- Full invariant of the planner after processing the terms `processed`:
core state invariants, one plan per processed term, each plan well-formed
and of the right shape, and every SUM-reducing term's plan sharing the
unique SUM slot registered for its input expression. -/
structure StInv (processed : List AggTerm) (st : SetupState) : Prop where
  core : CoreInv processed.length st
  plans_len : st.plans.length = processed.length
  plans_ok : ∀ (j : Nat) (t : AggTerm), processed[j]? = some t →
      ∃ p, st.plans[j]? = some p ∧ kindMatch t.agg_type p ∧
        planWF st.infos p
  sum_shared : ∀ (j : Nat) (t : AggTerm) (e : Expr),
      processed[j]? = some t → sumExprOf t = some e →
      ∃ idx, findSlot st.lookup (.AggregateSum, some e) = some idx ∧
        (st.plans[j]?).bind planSumIdx = some idx

/-- Expected finalized value of a term over zero rows (global aggregation,
zero-knowledge initialization, no advances): COUNT and COUNT-STAR yield 0,
everything else yields NULL. -/
def zeroRowsResult : ExpressionType → Value
  | .AggregateCount => some 0
  | .AggregateCountStar => some 0
  | _ => none

/-- Expected finalized value of a term seeded from a first row with
non-null value `v` and not advanced further: COUNT and COUNT-STAR yield 1,
everything else (SUM, MIN, MAX, AVERAGE) yields `v`. -/
def seedResult (k : ExpressionType) (v : Int) : Value :=
  match k with
  | .AggregateCount => some 1
  | .AggregateCountStar => some 1
  | _ => some v

/-- Expected finalized value of a term seeded from a first row whose value
is NULL: COUNT yields 0, COUNT-STAR yields 1, everything else yields
NULL. -/
def nullSeedResult : ExpressionType → Value
  | .AggregateCount => some 0
  | .AggregateCountStar => some 1
  | _ => none

/-- A term is well formed exactly when COUNT-STAR carries no input
expression and every other kind carries one. -/
def termWellFormed (t : AggTerm) : Bool :=
  match t.agg_type with
  | .AggregateCountStar => t.expression.isNone
  | _ => t.expression.isSome

theorem CreateInitialGlobalValues_eq (agg : Aggregation) :
    CreateInitialGlobalValues agg =
      (agg, agg.aggregate_infos_.map fun info =>
        nullInitialValue info.aggregate_type) := by
  have aux : ∀ (infos : List AggregateInfo) (a : Aggregation)
      (acc : List Value),
      infos.foldl
        (fun s info => (s.1, s.2 ++ [nullInitialValue info.aggregate_type]))
        (a, acc) =
        (a, acc ++ infos.map fun info =>
          nullInitialValue info.aggregate_type) := by
    intro infos
    induction infos with
    | nil => intro a acc; simp
    | cons x xs ih =>
        intro a acc
        rw [List.foldl_cons, ih]
        simp
  unfold CreateInitialGlobalValues
  rw [aux]
  simp

theorem CreateInitialValues_eq (agg : Aggregation) (initial : List Value) :
    CreateInitialValues agg initial =
      (agg, agg.aggregate_infos_.map fun info =>
        seedValue info.aggregate_type
          (initial.getD info.source_index none)) := by
  have aux : ∀ (infos : List AggregateInfo) (a : Aggregation)
      (acc : List Value),
      infos.foldl
        (fun s info => (s.1, s.2 ++ [seedValue info.aggregate_type
          (initial.getD info.source_index none)])) (a, acc) =
        (a, acc ++ infos.map fun info => seedValue info.aggregate_type
          (initial.getD info.source_index none)) := by
    intro infos
    induction infos with
    | nil => intro a acc; simp
    | cons x xs ih =>
        intro a acc
        rw [List.foldl_cons, ih]
        simp
  unfold CreateInitialValues
  rw [aux]
  simp

theorem AdvanceValues_eq (agg : Aggregation) (buf : Buffer)
    (next : List Value) :
    AdvanceValues agg buf next =
      (agg, agg.aggregate_infos_.foldl
        (fun b info => DoAdvanceValue b info
          (next.getD info.source_index none)) buf) := by
  have aux : ∀ (infos : List AggregateInfo) (a : Aggregation) (b : Buffer),
      infos.foldl
        (fun s info => (s.1, DoAdvanceValue s.2 info
          (next.getD info.source_index none))) (a, b) =
        (a, infos.foldl (fun b info => DoAdvanceValue b info
          (next.getD info.source_index none)) b) := by
    intro infos
    induction infos with
    | nil => intro a b; rfl
    | cons x xs ih =>
        intro a b
        rw [List.foldl_cons, List.foldl_cons, ih]
  unfold AdvanceValues
  rw [aux]

theorem finalizePlan_eq (buf : Buffer) (p : TermPlan) :
    finalizePlan buf p = (buf, finalizeVal buf p) := by
  cases p <;> rfl

theorem FinalizeValues_eq (agg : Aggregation) (buf : Buffer) :
    FinalizeValues agg buf =
      (agg, buf, agg.term_plans_.map (finalizeVal buf)) := by
  have aux : ∀ (plans : List TermPlan) (a : Aggregation) (b : Buffer)
      (acc : List Value),
      plans.foldl
        (fun s plan =>
          let r := finalizePlan s.2.1 plan
          (s.1, r.1, s.2.2 ++ [r.2])) (a, b, acc) =
        (a, b, acc ++ plans.map (finalizeVal b)) := by
    intro plans
    induction plans with
    | nil => intro a b acc; simp
    | cons p ps ih =>
        intro a b acc
        rw [List.foldl_cons, ih]
        simp [finalizePlan_eq]
  unfold FinalizeValues
  rw [aux]
  simp

theorem getD_some_lt {buf : Buffer} {i : Nat} {c : Int}
    (h : buf.getD i none = some c) : i < buf.length := by
  by_contra hlt
  push_neg at hlt
  rw [List.getD_eq_getElem?_getD, List.getElem?_eq_none hlt] at h
  simp at h

theorem getD_set_self {buf : Buffer} {i : Nat} (x : Value)
    (h : i < buf.length) : (buf.set i x).getD i none = x := by
  rw [List.getD_eq_getElem?_getD, List.getElem?_set_self h]
  rfl

theorem getElem?_append_some {α : Type _} {l : List α} (x : α) {i : Nat}
    {v : α} (h : l[i]? = some v) : (l ++ [x])[i]? = some v := by
  obtain ⟨hl, -⟩ := List.getElem?_eq_some_iff.1 h
  rw [List.getElem?_append_left hl]
  exact h

theorem getElem?_clearInternal (infos : List AggregateInfo) (idx i : Nat) :
    (clearInternal infos idx)[i]? = (infos[i]?).map fun info =>
      if info.storage_index = idx then { info with is_internal := false }
      else info := by
  simp [clearInternal, List.getElem?_map]

theorem findSlot_cons (k : ExpressionType × Option Expr) (v : Nat)
    (rest : List ((ExpressionType × Option Expr) × Nat))
    (key : ExpressionType × Option Expr) :
    findSlot ((k, v) :: rest) key =
      if k = key then some v else findSlot rest key := rfl

theorem planWF_mono {infos infos' : List AggregateInfo}
    (hext : ∀ (i : Nat) (v : AggregateInfo),
      infos[i]? = some v → infos'[i]? = some v) :
    ∀ {p : TermPlan}, planWF infos p → planWF infos' p := by
  intro p hp
  cases p with
  | simple k i =>
      obtain ⟨info, h1, h2, h3⟩ := hp
      exact ⟨info, hext _ _ h1, h2, h3⟩
  | average s c =>
      obtain ⟨⟨i1, h1, h2⟩, ⟨i2, h3, h4⟩⟩ := hp
      exact ⟨⟨i1, hext _ _ h1, h2⟩, ⟨i2, hext _ _ h3, h4⟩⟩

theorem planWF_clearInternal {infos : List AggregateInfo} (idx : Nat)
    {p : TermPlan} (hp : planWF infos p) :
    planWF (clearInternal infos idx) p := by
  cases p with
  | simple k i =>
      obtain ⟨info, h1, h2, h3⟩ := hp
      refine ⟨if info.storage_index = idx then
        { info with is_internal := false } else info, ?_, ?_, ?_⟩
      · rw [getElem?_clearInternal, h1]
        rfl
      · split <;> simp [h2]
      · split <;> simp [h3]
  | average s c =>
      obtain ⟨⟨i1, h1, h2⟩, ⟨i2, h3, h4⟩⟩ := hp
      constructor
      · refine ⟨if i1.storage_index = idx then
          { i1 with is_internal := false } else i1, ?_, ?_⟩
        · rw [getElem?_clearInternal, h1]
          rfl
        · split <;> simp [h2]
      · refine ⟨if i2.storage_index = idx then
          { i2 with is_internal := false } else i2, ?_, ?_⟩
        · rw [getElem?_clearInternal, h3]
          rfl
        · split <;> simp [h4]

theorem CoreInv.mono {bound bound' : Nat} {st : SetupState}
    (h : bound ≤ bound') (hc : CoreInv bound st) : CoreInv bound' st := by
  refine ⟨hc.infos_len, ?_, hc.lookup_sound⟩
  intro i info hi
  obtain ⟨h1, h2, h3⟩ := hc.infos_idx i info hi
  exact ⟨h1, h2, lt_of_lt_of_le h3 h⟩

theorem getElem?_append_single {α : Type _} {l : List α} {x : α} {j : Nat}
    {v : α} (h : (l ++ [x])[j]? = some v) :
    (j < l.length ∧ l[j]? = some v) ∨ (j = l.length ∧ v = x) := by
  rcases Nat.lt_trichotomy j l.length with hlt | heq | hgt
  · left
    refine ⟨hlt, ?_⟩
    rw [List.getElem?_append_left hlt] at h
    exact h
  · right
    subst heq
    rw [List.getElem?_concat_length] at h
    injection h with h
    exact ⟨rfl, h.symm⟩
  · exfalso
    have hle : (l ++ [x]).length ≤ j := by simp; omega
    rw [List.getElem?_eq_none hle] at h
    cases h

theorem findSlot_prepend_stable {lookup :
      List ((ExpressionType × Option Expr) × Nat)}
    {key key' : ExpressionType × Option Expr} {n i : Nat}
    (hmiss : findSlot lookup key = none)
    (h : findSlot lookup key' = some i) :
    findSlot ((key, n) :: lookup) key' = some i := by
  rw [findSlot_cons]
  split
  · rename_i heq
    rw [heq] at hmiss
    rw [hmiss] at h
    cases h
  · exact h

theorem CoreInv_set_plans {bound : Nat} {st : SetupState}
    (plans' : List TermPlan) (hc : CoreInv bound st) :
    CoreInv bound { st with plans := plans' } :=
  ⟨hc.infos_len, hc.infos_idx, hc.lookup_sound⟩

theorem CoreInv_clearInternal {bound : Nat} {st : SetupState} (idx : Nat)
    (plans' : List TermPlan) (hc : CoreInv bound st) :
    CoreInv bound
      ⟨clearInternal st.infos idx, plans', st.slots, st.lookup⟩ := by
  obtain ⟨hlen, hidx, hlook⟩ := hc
  refine ⟨?_, ?_, ?_⟩
  · simpa [clearInternal] using hlen
  · intro i info hi
    rw [getElem?_clearInternal] at hi
    cases hgi : st.infos[i]? with
    | none => rw [hgi] at hi; cases hi
    | some info1 =>
        rw [hgi] at hi
        simp only [Option.map_some'] at hi
        injection hi with hi
        obtain ⟨h1, h2, h3⟩ := hidx i info1 hgi
        rw [← hi]
        split <;> exact ⟨h1, h2, h3⟩
  · intro k oe idx2 hfind
    obtain ⟨info, hinfo, hk⟩ := hlook k oe idx2 hfind
    refine ⟨if info.storage_index = idx then
      { info with is_internal := false } else info, ?_, ?_⟩
    · rw [getElem?_clearInternal, hinfo]
      rfl
    · split <;> exact hk

theorem CoreInv_append {bound : Nat} {st : SetupState}
    (plans' : List TermPlan)
    (kind : ExpressionType) (ty : TypeId) (src : Nat) (internal : Bool)
    (oe : Option Expr)
    (hkind : kind ≠ .AggregateAvg) (hsrc : src < bound)
    (hc : CoreInv bound st) :
    CoreInv bound
      ⟨st.infos ++ [⟨kind, ty, src, st.slots.length, internal⟩], plans',
       st.slots ++ [ty], ((kind, oe), st.slots.length) :: st.lookup⟩ := by
  obtain ⟨hlen, hidx, hlook⟩ := hc
  have hn : st.slots.length = st.infos.length := hlen.symm
  refine ⟨?_, ?_, ?_⟩
  · simp [hlen]
  · intro i info hi
    rcases getElem?_append_single hi with ⟨hj, hpre⟩ | ⟨hj, hteq⟩
    · exact hidx i info hpre
    · subst hteq
      refine ⟨?_, hkind, hsrc⟩
      rw [hj]
      exact hn
  · intro k2 oe2 idx2 hfind
    rw [findSlot_cons] at hfind
    split at hfind
    · rename_i heq
      injection hfind with hfind
      subst hfind
      obtain ⟨hk2, -⟩ : kind = k2 ∧ oe = oe2 := by
        simpa using heq
      refine ⟨⟨kind, ty, src, st.slots.length, internal⟩, ?_, hk2⟩
      rw [hn, List.getElem?_concat_length]
    · obtain ⟨info, hinfo, hk⟩ := hlook k2 oe2 idx2 hfind
      exact ⟨info, getElem?_append_some _ hinfo, hk⟩

theorem visibleStep_inv (pre : List AggTerm) (st : SetupState) (t : AggTerm)
    (kind : ExpressionType) (ty : TypeId) (oe : Option Expr)
    (hInv : StInv pre st)
    (hk : t.agg_type = kind)
    (hkind : kind ≠ .AggregateAvg)
    (hsum : sumExprOf t = if kind = .AggregateSum then oe else none) :
    StInv (pre ++ [t]) (visibleStep st kind ty oe pre.length) := by
  obtain ⟨hcore, hplen, hpok, hshared⟩ := hInv
  have hcore' : CoreInv (pre ++ [t]).length st :=
    hcore.mono (by simp)
  cases hf : findSlot st.lookup (kind, oe) with
  | some idx =>
      have hstep : visibleStep st kind ty oe pre.length =
          ⟨clearInternal st.infos idx, st.plans ++ [.simple kind idx],
           st.slots, st.lookup⟩ := by
        simp [visibleStep, resolveSlot, hf]
      rw [hstep]
      obtain ⟨info0, hinfo0, hkind0⟩ := hcore.lookup_sound _ _ _ hf
      have hsidx0 : info0.storage_index = idx :=
        (hcore.infos_idx _ _ hinfo0).1
      refine ⟨CoreInv_clearInternal idx _ hcore', ?_, ?_, ?_⟩
      · simp [hplen]
      · intro j t' ht'
        rcases getElem?_append_single ht' with ⟨hj, hpre⟩ | ⟨hj, hteq⟩
        · obtain ⟨p, hp, hm, hwf⟩ := hpok j t' hpre
          exact ⟨p, getElem?_append_some _ hp, hm,
            planWF_clearInternal idx hwf⟩
        · refine ⟨.simple kind idx, ?_, ?_, ?_⟩
          · rw [hj, ← hplen, List.getElem?_concat_length]
          · rw [hteq]
            exact ⟨hk.symm, hk ▸ hkind⟩
          · refine ⟨{ info0 with is_internal := false }, ?_, hkind0, rfl⟩
            rw [getElem?_clearInternal, hinfo0]
            simp [hsidx0]
      · intro j t' e ht' hse
        rcases getElem?_append_single ht' with ⟨hj, hpre⟩ | ⟨hj, hteq⟩
        · obtain ⟨idx0, hfind0, hbind0⟩ := hshared j t' e hpre hse
          refine ⟨idx0, hfind0, ?_⟩
          cases hpj : st.plans[j]? with
          | none => rw [hpj] at hbind0; cases hbind0
          | some p0 =>
              rw [getElem?_append_some _ hpj]
              rw [hpj] at hbind0
              exact hbind0
        · rw [hteq] at hse
          by_cases hs : kind = .AggregateSum
          · rw [hsum, if_pos hs] at hse
            refine ⟨idx, ?_, ?_⟩
            · rw [← hs, ← hse]
              exact hf
            · rw [hj, ← hplen, List.getElem?_concat_length]
              simp [planSumIdx, hs]
          · rw [hsum, if_neg hs] at hse
            cases hse
  | none =>
      have hstep : visibleStep st kind ty oe pre.length =
          ⟨st.infos ++
            [⟨kind, ty, pre.length, st.slots.length, false⟩],
           st.plans ++ [.simple kind st.slots.length],
           st.slots ++ [ty],
           ((kind, oe), st.slots.length) :: st.lookup⟩ := by
        simp [visibleStep, resolveSlot, hf]
      rw [hstep]
      have hn : st.slots.length = st.infos.length :=
        hcore.infos_len.symm
      refine ⟨CoreInv_append _ kind ty pre.length false oe hkind
        (by simp) hcore', ?_, ?_, ?_⟩
      · simp [hplen]
      · intro j t' ht'
        rcases getElem?_append_single ht' with ⟨hj, hpre⟩ | ⟨hj, hteq⟩
        · obtain ⟨p, hp, hm, hwf⟩ := hpok j t' hpre
          exact ⟨p, getElem?_append_some _ hp, hm,
            planWF_mono (fun i v hv => getElem?_append_some _ hv) hwf⟩
        · refine ⟨.simple kind st.slots.length, ?_, ?_, ?_⟩
          · rw [hj, ← hplen, List.getElem?_concat_length]
          · rw [hteq]
            exact ⟨hk.symm, hk ▸ hkind⟩
          · refine ⟨⟨kind, ty, pre.length, st.slots.length, false⟩,
              ?_, rfl, rfl⟩
            rw [hn, List.getElem?_concat_length]
      · intro j t' e ht' hse
        rcases getElem?_append_single ht' with ⟨hj, hpre⟩ | ⟨hj, hteq⟩
        · obtain ⟨idx0, hfind0, hbind0⟩ := hshared j t' e hpre hse
          refine ⟨idx0, findSlot_prepend_stable hf hfind0, ?_⟩
          cases hpj : st.plans[j]? with
          | none => rw [hpj] at hbind0; cases hbind0
          | some p0 =>
              rw [getElem?_append_some _ hpj]
              rw [hpj] at hbind0
              exact hbind0
        · rw [hteq] at hse
          by_cases hs : kind = .AggregateSum
          · rw [hsum, if_pos hs] at hse
            refine ⟨st.slots.length, ?_, ?_⟩
            · rw [findSlot_cons, if_pos (by rw [hs, hse])]
            · rw [hj, ← hplen, List.getElem?_concat_length]
              simp [planSumIdx, hs]
          · rw [hsum, if_neg hs] at hse
            cases hse


theorem resolveSlot_internal {bound : Nat} {st : SetupState}
    (kind : ExpressionType) (ty : TypeId) (e : Expr) (src : Nat)
    {ridx : Nat} {st' : SetupState}
    (hres : resolveSlot st kind ty (some e) src true = (ridx, st'))
    (hc : CoreInv bound st) (hkind : kind ≠ .AggregateAvg)
    (hsrc : src < bound) :
    CoreInv bound st' ∧ st'.plans = st.plans ∧
    (∀ (i : Nat) (v : AggregateInfo), st.infos[i]? = some v →
      st'.infos[i]? = some v) ∧
    (∀ (key : ExpressionType × Option Expr) (i : Nat),
      findSlot st.lookup key = some i →
      findSlot st'.lookup key = some i) ∧
    findSlot st'.lookup (kind, some e) = some ridx ∧
    (∃ info, st'.infos[ridx]? = some info ∧
      info.aggregate_type = kind) := by
  cases hf : findSlot st.lookup (kind, some e) with
  | some idx =>
      have heq : ((idx, st) : Nat × SetupState) = (ridx, st') := by
        rw [← hres]
        simp [resolveSlot, hf]
      injection heq with h1 h2
      subst h1
      subst h2
      exact ⟨hc, rfl, fun i v hv => hv, fun key i hi => hi, hf,
        hc.lookup_sound _ _ _ hf⟩
  | none =>
      have heq : ((st.slots.length,
          (⟨st.infos ++ [⟨kind, ty, src, st.slots.length, true⟩],
            st.plans, st.slots ++ [ty],
            ((kind, some e), st.slots.length) :: st.lookup⟩ :
              SetupState)) : Nat × SetupState) = (ridx, st') := by
        rw [← hres]
        simp [resolveSlot, hf]
      injection heq with h1 h2
      subst h1
      subst h2
      have hn : st.slots.length = st.infos.length :=
        hc.infos_len.symm
      refine ⟨CoreInv_append _ kind ty src true (some e) hkind hsrc hc,
        rfl, ?_, ?_, ?_, ?_⟩
      · intro i v hv
        exact getElem?_append_some _ hv
      · intro key i hi
        exact findSlot_prepend_stable hf hi
      · rw [findSlot_cons, if_pos rfl]
      · refine ⟨⟨kind, ty, src, st.slots.length, true⟩, ?_, rfl⟩
        rw [hn, List.getElem?_concat_length]

theorem avgStep_inv (pre : List AggTerm) (st : SetupState) (t : AggTerm)
    (e : Expr) {sidx cidx : Nat} {st1 st2 : SetupState}
    (hInv : StInv pre st)
    (havg : t.agg_type = .AggregateAvg)
    (hexpr : t.expression = some e)
    (hr1 : resolveSlot st .AggregateSum t.value_type (some e)
      pre.length true = (sidx, st1))
    (hr2 : resolveSlot st1 .AggregateCount countType (some e)
      pre.length true = (cidx, st2)) :
    StInv (pre ++ [t])
      { st2 with plans := st2.plans ++ [.average sidx cidx] } := by
  obtain ⟨hcore, hplen, hpok, hshared⟩ := hInv
  have hcore' : CoreInv (pre ++ [t]).length st :=
    hcore.mono (by simp)
  obtain ⟨hc1, hp1, hext1, hstab1, hfind1, hinfo1⟩ :=
    resolveSlot_internal .AggregateSum t.value_type e pre.length hr1
      hcore' (by intro hcon; cases hcon) (by simp)
  obtain ⟨hc2, hp2, hext2, hstab2, hfind2, hinfo2⟩ :=
    resolveSlot_internal .AggregateCount countType e pre.length hr2
      hc1 (by intro hcon; cases hcon) (by simp)
  have hlen2 : st2.plans.length = pre.length := by
    rw [hp2, hp1, hplen]
  refine ⟨CoreInv_set_plans _ hc2, ?_, ?_, ?_⟩
  · simp [hlen2]
  · intro j t' ht'
    rcases getElem?_append_single ht' with ⟨hj, hpre⟩ | ⟨hj, hteq⟩
    · obtain ⟨p, hp, hm, hwf⟩ := hpok j t' hpre
      refine ⟨p, ?_, hm, planWF_mono (fun i v hv => hext2 i v
        (hext1 i v hv)) hwf⟩
      show (st2.plans ++ [TermPlan.average sidx cidx])[j]? = some p
      rw [hp2, hp1]
      exact getElem?_append_some _ hp
    · refine ⟨.average sidx cidx, ?_, ?_, ?_⟩
      · show (st2.plans ++ [TermPlan.average sidx cidx])[j]? = _
        rw [hj, ← hlen2, List.getElem?_concat_length]
      · rw [hteq]
        exact havg
      · constructor
        · obtain ⟨info, hi, hik⟩ := hinfo1
          exact ⟨info, hext2 _ _ hi, hik⟩
        · exact hinfo2
  · intro j t' e' ht' hse
    rcases getElem?_append_single ht' with ⟨hj, hpre⟩ | ⟨hj, hteq⟩
    · obtain ⟨idx0, hfind0, hbind0⟩ := hshared j t' e' hpre hse
      refine ⟨idx0, hstab2 _ _ (hstab1 _ _ hfind0), ?_⟩
      cases hpj : st.plans[j]? with
      | none => rw [hpj] at hbind0; cases hbind0
      | some p0 =>
          rw [hpj] at hbind0
          show ((st2.plans ++
            [TermPlan.average sidx cidx])[j]?).bind planSumIdx = _
          rw [hp2, hp1, getElem?_append_some _ hpj]
          exact hbind0
    · rw [hteq] at hse
      have he' : some e' = some e := by
        rw [← hse, sumExprOf, havg, hexpr]
      injection he' with he'
      subst he'
      refine ⟨sidx, hstab2 _ _ hfind1, ?_⟩
      show ((st2.plans ++
        [TermPlan.average sidx cidx])[j]?).bind planSumIdx = _
      rw [hj, ← hlen2, List.getElem?_concat_length]
      rfl

theorem processTerm_inv (pre : List AggTerm) (st st' : SetupState)
    (t : AggTerm) (hInv : StInv pre st)
    (h : processTerm st pre.length t = .ok st') :
    StInv (pre ++ [t]) st' := by
  cases hk : t.agg_type with
  | AggregateCountStar =>
      simp only [processTerm, hk] at h
      cases hex : t.expression.isSome with
      | true => rw [if_pos (by rw [hex])] at h; cases h
      | false =>
          rw [if_neg (by rw [hex]; intro hcon; cases hcon)] at h
          injection h with h
          rw [← h]
          exact visibleStep_inv pre st t .AggregateCountStar countType
            none hInv hk (by intro hcon; cases hcon)
            (by simp [sumExprOf, hk])
  | AggregateCount =>
      simp only [processTerm, hk] at h
      cases hex : t.expression with
      | none => rw [hex] at h; cases h
      | some e =>
          rw [hex] at h
          injection h with h
          rw [← h]
          exact visibleStep_inv pre st t .AggregateCount countType
            (some e) hInv hk (by intro hcon; cases hcon)
            (by simp [sumExprOf, hk])
  | AggregateSum =>
      simp only [processTerm, hk] at h
      cases hex : t.expression with
      | none => rw [hex] at h; cases h
      | some e =>
          rw [hex] at h
          injection h with h
          rw [← h]
          exact visibleStep_inv pre st t .AggregateSum t.value_type
            (some e) hInv hk (by intro hcon; cases hcon)
            (by simp [sumExprOf, hk, hex])
  | AggregateMin =>
      simp only [processTerm, hk] at h
      cases hex : t.expression with
      | none => rw [hex] at h; cases h
      | some e =>
          rw [hex] at h
          injection h with h
          rw [← h]
          exact visibleStep_inv pre st t .AggregateMin t.value_type
            (some e) hInv hk (by intro hcon; cases hcon)
            (by simp [sumExprOf, hk])
  | AggregateMax =>
      simp only [processTerm, hk] at h
      cases hex : t.expression with
      | none => rw [hex] at h; cases h
      | some e =>
          rw [hex] at h
          injection h with h
          rw [← h]
          exact visibleStep_inv pre st t .AggregateMax t.value_type
            (some e) hInv hk (by intro hcon; cases hcon)
            (by simp [sumExprOf, hk])
  | AggregateAvg =>
      simp only [processTerm, hk] at h
      cases hex : t.expression with
      | none => rw [hex] at h; cases h
      | some e =>
          rw [hex] at h
          injection h with h
          rw [← h]
          cases hr1 : resolveSlot st .AggregateSum t.value_type (some e)
            pre.length true with
          | mk sidx st1 =>
              cases hr2 : resolveSlot st1 .AggregateCount countType
                (some e) pre.length true with
              | mk cidx st2 =>
                  simpa only [hr1, hr2] using
                    avgStep_inv pre st t e hInv hk hex hr1 hr2

theorem setupLoop_inv : ∀ (ts pre : List AggTerm) (st st' : SetupState),
    StInv pre st → setupLoop st pre.length ts = .ok st' →
    StInv (pre ++ ts) st' := by
  intro ts
  induction ts with
  | nil =>
      intro pre st st' h hok
      simp only [setupLoop] at hok
      injection hok with hok
      rw [← hok]
      simpa using h
  | cons t ts ih =>
      intro pre st st' h hok
      simp only [setupLoop] at hok
      cases hp : processTerm st pre.length t with
      | error e => rw [hp] at hok; cases hok
      | ok st1 =>
          rw [hp] at hok
          have h1 := processTerm_inv pre st st1 t h hp
          have h2 := ih (pre ++ [t]) st1 st' h1 (by
            simpa using hok)
          simpa using h2

theorem Setup_sound {terms : List AggTerm} {g : Bool} {agg : Aggregation}
    (h : Setup terms g = .ok agg) :
    agg.term_plans_.length = terms.length ∧
    (∀ (i : Nat) (info : AggregateInfo),
        agg.aggregate_infos_[i]? = some info →
        info.storage_index = i ∧ info.aggregate_type ≠ .AggregateAvg ∧
        info.source_index < terms.length) ∧
    (∀ (j : Nat) (t : AggTerm), terms[j]? = some t →
        ∃ p, agg.term_plans_[j]? = some p ∧ kindMatch t.agg_type p ∧
          planWF agg.aggregate_infos_ p) ∧
    (∀ (j j' : Nat) (t t' : AggTerm) (e : Expr), terms[j]? = some t →
        terms[j']? = some t' → sumExprOf t = some e →
        sumExprOf t' = some e →
        ∃ idx, (agg.term_plans_[j]?).bind planSumIdx = some idx ∧
          (agg.term_plans_[j']?).bind planSumIdx = some idx) := by
  unfold Setup at h
  split at h
  · cases h
  · cases hs : setupLoop ⟨[], [], [], []⟩ 0 terms with
    | error e => rw [hs] at h; cases h
    | ok st =>
        rw [hs] at h
        injection h with h
        have hinv0 : StInv [] ⟨[], [], [], []⟩ := by
          refine ⟨⟨rfl, ?_, ?_⟩, rfl, ?_, ?_⟩
          · intro i info hi
            cases hi
          · intro k oe idx hf
            cases hf
          · intro j t ht
            cases ht
          · intro j t e ht
            cases ht
        have hinv : StInv terms st := by
          have := setupLoop_inv terms [] ⟨[], [], [], []⟩ st hinv0 hs
          simpa using this
        obtain ⟨⟨hlen, hidx, hlook⟩, hplen, hpok, hshared⟩ := hinv
        rw [← h]
        refine ⟨hplen, hidx, hpok, ?_⟩
        intro j j' t t' e ht ht' hse hse'
        obtain ⟨i1, hf1, hb1⟩ := hshared j t e ht hse
        obtain ⟨i2, hf2, hb2⟩ := hshared j' t' e ht' hse'
        rw [hf1] at hf2
        injection hf2 with hf2
        exact ⟨i1, hb1, by rw [hf2]; exact hb2⟩

theorem getD_eq_some {l : Buffer} {i : Nat} {x : Value}
    (h : l.getD i none = x) (hlt : i < l.length) : l[i]? = some x := by
  rw [List.getD_eq_getElem?_getD] at h
  cases hi : l[i]? with
  | none =>
      rw [List.getElem?_eq_none_iff] at hi
      omega
  | some y =>
      rw [hi] at h
      simp only [Option.getD_some] at h
      rw [h]

theorem set_getD_self (l : Buffer) (i : Nat) :
    l.set i (l.getD i none) = l := by
  by_cases hlt : i < l.length
  · have hy := getD_eq_some rfl hlt
    apply List.ext_getElem?
    intro j
    by_cases hj : j = i
    · subst hj
      rw [List.getElem?_set_self hlt, hy]
    · rw [List.getElem?_set_ne (fun hcon => hj hcon.symm)]
  · exact List.set_eq_of_length_le (by omega)

theorem finalizeVal_simple (buf : Buffer) (k : ExpressionType) (i : Nat) :
    finalizeVal buf (.simple k i) = buf.getD i none := rfl

theorem finalizeVal_average (buf : Buffer) (s c : Nat) :
    finalizeVal buf (.average s c) =
      match buf.getD s none, buf.getD c none with
      | some sv, some cv => if cv = 0 then none else some (sv / cv)
      | _, _ => none := rfl

theorem finalize_kindwise {terms : List AggTerm} {g : Bool}
    {agg : Aggregation} (h : Setup terms g = .ok agg)
    (w r : ExpressionType → Value)
    (hsimple : ∀ k, k ≠ .AggregateAvg → w k = r k)
    (havg : finalizeVal [w .AggregateSum, w .AggregateCount]
      (.average 0 1) = r .AggregateAvg) :
    (FinalizeValues agg (agg.aggregate_infos_.map fun info =>
      w info.aggregate_type)).2.2 = terms.map fun t => r t.agg_type := by
  obtain ⟨hplen, hidx, hpok, -⟩ := Setup_sound h
  rw [FinalizeValues_eq]
  apply List.ext_getElem?
  intro j
  rw [List.getElem?_map, List.getElem?_map]
  cases ht : terms[j]? with
  | none =>
      have hlen : agg.term_plans_.length ≤ j := by
        rw [hplen]
        exact List.getElem?_eq_none_iff.1 ht
      rw [List.getElem?_eq_none hlen]
      rfl
  | some t =>
      obtain ⟨p, hp, hm, hwf⟩ := hpok j t ht
      rw [hp]
      simp only [Option.map_some']
      congr 1
      cases p with
      | simple k i =>
          obtain ⟨hk', hknavg⟩ := hm
          obtain ⟨info, hi, hik, -⟩ := hwf
          rw [finalizeVal_simple, List.getD_eq_getElem?_getD,
            List.getElem?_map, hi]
          simp only [Option.map_some', Option.getD_some]
          rw [hik, hk']
          exact hsimple t.agg_type (hk' ▸ hknavg)
      | average s c =>
          have havgk : t.agg_type = .AggregateAvg := hm
          obtain ⟨⟨infoS, hiS, hkS⟩, ⟨infoC, hiC, hkC⟩⟩ := hwf
          have hbufS : (agg.aggregate_infos_.map fun info =>
              w info.aggregate_type).getD s none = w .AggregateSum := by
            rw [List.getD_eq_getElem?_getD, List.getElem?_map, hiS]
            simp only [Option.map_some', Option.getD_some]
            rw [hkS]
          have hbufC : (agg.aggregate_infos_.map fun info =>
              w info.aggregate_type).getD c none = w .AggregateCount := by
            rw [List.getD_eq_getElem?_getD, List.getElem?_map, hiC]
            simp only [Option.map_some', Option.getD_some]
            rw [hkC]
          rw [finalizeVal_average, hbufS, hbufC, havgk, ← havg,
            finalizeVal_average]
          simp [List.getD]

/-- C5: for every global aggregation, a buffer initialized by
`CreateInitialGlobalValues` and finalized with no intervening
`AdvanceValues` call yields 0 for COUNT and COUNT-STAR terms and NULL for
SUM, MIN, MAX and AVERAGE terms, because the zero-knowledge
initialization writes 0 to every COUNT/COUNT-STAR slot and NULL to every
SUM/MIN/MAX slot. -/
theorem setup_global_zero_rows (terms : List AggTerm) (agg : Aggregation)
    (h : Setup terms true = .ok agg) :
    (FinalizeValues agg (CreateInitialGlobalValues agg).2).2.2 =
      terms.map fun t => zeroRowsResult t.agg_type := by
  have hbuf : (CreateInitialGlobalValues agg).2 =
      agg.aggregate_infos_.map fun info =>
        nullInitialValue info.aggregate_type := by
    rw [CreateInitialGlobalValues_eq]
  rw [hbuf]
  exact finalize_kindwise h nullInitialValue zeroRowsResult
    (fun k _ => by cases k <;> rfl) rfl

theorem setup_global_zero_rows_witness :
    Setup [⟨.AggregateCount, .Integer, some 0, false⟩,
           ⟨.AggregateMin, .Integer, some 1, false⟩] true =
      .ok ⟨true,
        [⟨.AggregateCount, countType, 0, 0, false⟩,
         ⟨.AggregateMin, .Integer, 1, 1, false⟩],
        [.simple .AggregateCount 0, .simple .AggregateMin 1],
        [countType, .Integer]⟩ ∧
    (FinalizeValues
      ⟨true,
        [⟨.AggregateCount, countType, 0, 0, false⟩,
         ⟨.AggregateMin, .Integer, 1, 1, false⟩],
        [.simple .AggregateCount 0, .simple .AggregateMin 1],
        [countType, .Integer]⟩
      (CreateInitialGlobalValues
        ⟨true,
          [⟨.AggregateCount, countType, 0, 0, false⟩,
           ⟨.AggregateMin, .Integer, 1, 1, false⟩],
          [.simple .AggregateCount 0, .simple .AggregateMin 1],
          [countType, .Integer]⟩).2).2.2 = [some 0, none] := by
  constructor
  · rfl
  · have := setup_global_zero_rows
      [⟨.AggregateCount, .Integer, some 0, false⟩,
       ⟨.AggregateMin, .Integer, some 1, false⟩]
      ⟨true,
        [⟨.AggregateCount, countType, 0, 0, false⟩,
         ⟨.AggregateMin, .Integer, 1, 1, false⟩],
        [.simple .AggregateCount 0, .simple .AggregateMin 1],
        [countType, .Integer]⟩ rfl
    simpa using this

/-- C6: for every grouped aggregation, `CreateInitialValues` writes every
physical slot exactly once (the buffer has exactly one entry per slot),
and a group seeded with a uniform non-null first-row value `v` and not
advanced further finalizes to 1 for COUNT and COUNT-STAR terms and to `v`
for SUM, MIN, MAX (and AVERAGE) terms, while a group seeded with a NULL
first-row value finalizes to 0 for COUNT, 1 for COUNT-STAR and NULL for
the rest. -/
theorem setup_first_row_seed (terms : List AggTerm) (g : Bool)
    (agg : Aggregation) (h : Setup terms g = .ok agg) :
    (∀ initial : List Value,
      ((CreateInitialValues agg initial).2).length =
        agg.aggregate_infos_.length) ∧
    (∀ v : Int,
      (FinalizeValues agg (CreateInitialValues agg
        (List.replicate terms.length (some v))).2).2.2 =
        terms.map fun t => seedResult t.agg_type v) ∧
    ((FinalizeValues agg (CreateInitialValues agg
        (List.replicate terms.length none)).2).2.2 =
      terms.map fun t => nullSeedResult t.agg_type) := by
  obtain ⟨hplen, hidx, hpok, -⟩ := Setup_sound h
  refine ⟨?_, ?_, ?_⟩
  · intro initial
    rw [CreateInitialValues_eq]
    simp
  · intro v
    have hbuf : (CreateInitialValues agg
        (List.replicate terms.length (some v))).2 =
        agg.aggregate_infos_.map fun info =>
          seedValue info.aggregate_type (some v) := by
      rw [CreateInitialValues_eq]
      apply List.map_congr_left
      intro info hinfo
      obtain ⟨i, hi⟩ := List.mem_iff_getElem?.1 hinfo
      have hsrc := (hidx i info hi).2.2
      rw [List.getD_eq_getElem?_getD, List.getElem?_replicate_of_lt hsrc]
      rfl
    rw [hbuf]
    exact finalize_kindwise h (fun k => seedValue k (some v))
      (fun k => seedResult k v)
      (fun k _ => by cases k <;> rfl)
      (by simp [finalizeVal_average, seedValue, seedResult, List.getD])
  · have hbuf : (CreateInitialValues agg
        (List.replicate terms.length none)).2 =
        agg.aggregate_infos_.map fun info =>
          seedValue info.aggregate_type none := by
      rw [CreateInitialValues_eq]
      apply List.map_congr_left
      intro info hinfo
      obtain ⟨i, hi⟩ := List.mem_iff_getElem?.1 hinfo
      have hsrc := (hidx i info hi).2.2
      rw [List.getD_eq_getElem?_getD, List.getElem?_replicate_of_lt hsrc]
      rfl
    rw [hbuf]
    exact finalize_kindwise h (fun k => seedValue k none) nullSeedResult
      (fun k _ => by cases k <;> rfl) rfl

theorem setup_first_row_seed_witness :
    Setup [⟨.AggregateSum, .Integer, some 0, false⟩,
           ⟨.AggregateCountStar, .Integer, none, false⟩] false =
      .ok ⟨false,
        [⟨.AggregateSum, .Integer, 0, 0, false⟩,
         ⟨.AggregateCountStar, countType, 1, 1, false⟩],
        [.simple .AggregateSum 0, .simple .AggregateCountStar 1],
        [.Integer, countType]⟩ ∧
    (FinalizeValues
      ⟨false,
        [⟨.AggregateSum, .Integer, 0, 0, false⟩,
         ⟨.AggregateCountStar, countType, 1, 1, false⟩],
        [.simple .AggregateSum 0, .simple .AggregateCountStar 1],
        [.Integer, countType]⟩
      (CreateInitialValues
        ⟨false,
          [⟨.AggregateSum, .Integer, 0, 0, false⟩,
           ⟨.AggregateCountStar, countType, 1, 1, false⟩],
          [.simple .AggregateSum 0, .simple .AggregateCountStar 1],
          [.Integer, countType]⟩
        (List.replicate 2 (some 7))).2).2.2 = [some 7, some 1] := by
  constructor
  · rfl
  · have := (setup_first_row_seed
      [⟨.AggregateSum, .Integer, some 0, false⟩,
       ⟨.AggregateCountStar, .Integer, none, false⟩] false
      ⟨false,
        [⟨.AggregateSum, .Integer, 0, 0, false⟩,
         ⟨.AggregateCountStar, countType, 1, 1, false⟩],
        [.simple .AggregateSum 0, .simple .AggregateCountStar 1],
        [.Integer, countType]⟩ rfl).2.1 7
    simpa using this

/-- C7: for every term list accepted by `Setup` and every buffer,
`FinalizeValues` emits exactly one result value per original logical term,
the entry at position `j` being the finalization of term `j`'s plan (so
results follow the caller's original term order regardless of physical
slot ordering), and every slot referenced directly by a simple plan —
hence every slot copied verbatim into the result vector — has
`is_internal = false`. -/
theorem finalize_order_preservation (terms : List AggTerm) (g : Bool)
    (agg : Aggregation) (h : Setup terms g = .ok agg) :
    (∀ buf : Buffer, ((FinalizeValues agg buf).2.2).length =
      terms.length) ∧
    (∀ (j : Nat) (t : AggTerm), terms[j]? = some t →
      ∃ p, agg.term_plans_[j]? = some p ∧ kindMatch t.agg_type p ∧
        ∀ buf : Buffer,
          ((FinalizeValues agg buf).2.2)[j]? =
            some (finalizeVal buf p)) ∧
    (∀ (j : Nat) (k : ExpressionType) (idx : Nat),
      agg.term_plans_[j]? = some (.simple k idx) →
      ∃ info, agg.aggregate_infos_[idx]? = some info ∧
        info.is_internal = false ∧ info.aggregate_type = k) := by
  obtain ⟨hplen, hidx, hpok, -⟩ := Setup_sound h
  refine ⟨?_, ?_, ?_⟩
  · intro buf
    rw [FinalizeValues_eq]
    simp [hplen]
  · intro j t ht
    obtain ⟨p, hp, hm, hwf⟩ := hpok j t ht
    refine ⟨p, hp, hm, ?_⟩
    intro buf
    rw [FinalizeValues_eq]
    show (agg.term_plans_.map (finalizeVal buf))[j]? = _
    rw [List.getElem?_map, hp]
    rfl
  · intro j k idx hp
    cases ht : terms[j]? with
    | none =>
        exfalso
        have h1 : terms.length ≤ j := List.getElem?_eq_none_iff.1 ht
        have h2 : j < agg.term_plans_.length := by
          obtain ⟨hlt, -⟩ := List.getElem?_eq_some_iff.1 hp
          exact hlt
        omega
    | some t =>
        obtain ⟨p, hp2, hm, hwf⟩ := hpok j t ht
        rw [hp] at hp2
        injection hp2 with hp2
        rw [← hp2] at hwf
        obtain ⟨info, hi, hik, hint⟩ := hwf
        exact ⟨info, hi, hint, hik⟩

theorem finalize_order_preservation_witness :
    Setup [⟨.AggregateAvg, .Integer, some 0, false⟩,
           ⟨.AggregateCountStar, .Integer, none, false⟩,
           ⟨.AggregateSum, .Integer, some 1, false⟩] false =
      .ok ⟨false,
        [⟨.AggregateSum, .Integer, 0, 0, true⟩,
         ⟨.AggregateCount, countType, 0, 1, true⟩,
         ⟨.AggregateCountStar, countType, 1, 2, false⟩,
         ⟨.AggregateSum, .Integer, 2, 3, false⟩],
        [.average 0 1, .simple .AggregateCountStar 2,
         .simple .AggregateSum 3],
        [.Integer, countType, countType, .Integer]⟩ ∧
    (∀ buf : Buffer,
      ((FinalizeValues
        ⟨false,
          [⟨.AggregateSum, .Integer, 0, 0, true⟩,
           ⟨.AggregateCount, countType, 0, 1, true⟩,
           ⟨.AggregateCountStar, countType, 1, 2, false⟩,
           ⟨.AggregateSum, .Integer, 2, 3, false⟩],
          [.average 0 1, .simple .AggregateCountStar 2,
           .simple .AggregateSum 3],
          [.Integer, countType, countType, .Integer]⟩ buf).2.2).length =
        3) := by
  constructor
  · rfl
  · exact (finalize_order_preservation
      [⟨.AggregateAvg, .Integer, some 0, false⟩,
       ⟨.AggregateCountStar, .Integer, none, false⟩,
       ⟨.AggregateSum, .Integer, some 1, false⟩] false
      ⟨false,
        [⟨.AggregateSum, .Integer, 0, 0, true⟩,
         ⟨.AggregateCount, countType, 0, 1, true⟩,
         ⟨.AggregateCountStar, countType, 1, 2, false⟩,
         ⟨.AggregateSum, .Integer, 2, 3, false⟩],
        [.average 0 1, .simple .AggregateCountStar 2,
         .simple .AggregateSum 3],
        [.Integer, countType, countType, .Integer]⟩ rfl).1

/-- C8: `FinalizeValues` is read-only with respect to the storage buffer
(the buffer it returns is the buffer it was given), and re-running it on
that unchanged buffer with no intervening `AdvanceValues` call produces an
identical result vector. -/
theorem finalize_readonly_idempotent (agg : Aggregation) (buf : Buffer) :
    (FinalizeValues agg buf).2.1 = buf ∧
    (FinalizeValues agg ((FinalizeValues agg buf).2.1)).2.2 =
      (FinalizeValues agg buf).2.2 := by
  constructor
  · rw [FinalizeValues_eq]
  · simp [FinalizeValues_eq]

/-- C10: after `Setup` has fixed the configuration, no subsequent
operation modifies the `Aggregation` instance: the zero-knowledge and
first-row initializers, the advancer and the finalizer all return the
configuration they were given unchanged, so the reported storage size and
storage format stay the same for the engine's lifetime. -/
theorem config_immutable (agg : Aggregation) (buf : Buffer)
    (next initial : List Value) :
    (CreateInitialGlobalValues agg).1 = agg ∧
    (CreateInitialValues agg initial).1 = agg ∧
    (AdvanceValues agg buf next).1 = agg ∧
    (FinalizeValues agg buf).1 = agg ∧
    GetAggregatesStorageSize (AdvanceValues agg buf next).1 =
      GetAggregatesStorageSize agg ∧
    GetAggregateStorage (FinalizeValues agg buf).1 =
      GetAggregateStorage agg := by
  refine ⟨?_, ?_, ?_, ?_, ?_, ?_⟩
  · rw [CreateInitialGlobalValues_eq]
  · rw [CreateInitialValues_eq]
  · rw [AdvanceValues_eq]
  · rw [FinalizeValues_eq]
  · rw [AdvanceValues_eq]
  · rw [FinalizeValues_eq]

/-- C2: on an initialized buffer, `DoAdvanceValue` leaves a COUNT slot
unchanged when the input value is NULL and increments it by exactly 1 on a
non-null input, while a COUNT-STAR slot is incremented by exactly 1
regardless of the input's nullness; consequently the whole pipeline over
the input rows [5, NULL, 2, 8] yields 3 for COUNT and 4 for COUNT-STAR. -/
theorem advance_count_semantics :
    (∀ (buf : Buffer) (info : AggregateInfo) (c v : Int),
      info.aggregate_type = .AggregateCount →
      buf.getD info.storage_index none = some c →
      DoAdvanceValue buf info none = buf ∧
      (DoAdvanceValue buf info (some v)).getD info.storage_index none =
        some (c + 1)) ∧
    (∀ (buf : Buffer) (info : AggregateInfo) (c : Int) (v : Value),
      info.aggregate_type = .AggregateCountStar →
      buf.getD info.storage_index none = some c →
      (DoAdvanceValue buf info v).getD info.storage_index none =
        some (c + 1)) ∧
    runGlobal [⟨.AggregateCount, .Integer, some 0, false⟩]
      [[some 5], [none], [some 2], [some 8]] = some [some 3] ∧
    runGlobal [⟨.AggregateCountStar, .Integer, none, false⟩]
      [[some 5], [none], [some 2], [some 8]] = some [some 4] := by
  refine ⟨?_, ?_, rfl, rfl⟩
  · intro buf info c v hk hstored
    have hlt := getD_some_lt hstored
    constructor
    · unfold DoAdvanceValue
      rw [hk]
      exact set_getD_self buf info.storage_index
    · unfold DoAdvanceValue
      rw [hk, hstored]
      exact getD_set_self _ hlt
  · intro buf info c v hk hstored
    have hlt := getD_some_lt hstored
    unfold DoAdvanceValue
    rw [hk, hstored]
    exact getD_set_self _ hlt

theorem advance_count_semantics_witness :
    DoAdvanceValue [some 0] ⟨.AggregateCount, countType, 0, 0, false⟩
        none = [some 0] ∧
    (DoAdvanceValue [some 0] ⟨.AggregateCount, countType, 0, 0, false⟩
        (some 7)).getD 0 none = some 1 :=
  advance_count_semantics.1 [some 0]
    ⟨.AggregateCount, countType, 0, 0, false⟩ 0 7 rfl rfl

/-- C3: on an initialized buffer, `DoAdvanceValue` updates a SUM slot by
storing the input when the stored value is NULL, storing the sum when both
are non-null, and leaving the slot untouched on a NULL input; a MIN slot
stores the input when the current value is NULL, stores the input when it
is non-null and strictly below the current value, and is otherwise
unchanged; MAX is symmetric with strictly-greater; consequently the
pipeline over [5, NULL, 2, 8] yields MIN = 2 and MAX = 8. -/
theorem advance_value_semantics :
    (∀ (buf : Buffer) (info : AggregateInfo) (v : Int),
      info.aggregate_type = .AggregateSum →
      (buf.getD info.storage_index none = none →
        info.storage_index < buf.length →
        (DoAdvanceValue buf info (some v)).getD info.storage_index none =
          some v) ∧
      (∀ c : Int, buf.getD info.storage_index none = some c →
        (DoAdvanceValue buf info (some v)).getD info.storage_index none =
          some (c + v)) ∧
      DoAdvanceValue buf info none = buf) ∧
    (∀ (buf : Buffer) (info : AggregateInfo),
      info.aggregate_type = .AggregateMin →
      (∀ v : Value, buf.getD info.storage_index none = none →
        info.storage_index < buf.length →
        (DoAdvanceValue buf info v).getD info.storage_index none = v) ∧
      (∀ (c w : Int), buf.getD info.storage_index none = some c →
        w < c →
        (DoAdvanceValue buf info (some w)).getD info.storage_index none =
          some w) ∧
      (∀ (c w : Int), buf.getD info.storage_index none = some c →
        ¬ w < c →
        (DoAdvanceValue buf info (some w)).getD info.storage_index none =
          some c) ∧
      (∀ c : Int, buf.getD info.storage_index none = some c →
        (DoAdvanceValue buf info none).getD info.storage_index none =
          some c)) ∧
    (∀ (buf : Buffer) (info : AggregateInfo),
      info.aggregate_type = .AggregateMax →
      (∀ v : Value, buf.getD info.storage_index none = none →
        info.storage_index < buf.length →
        (DoAdvanceValue buf info v).getD info.storage_index none = v) ∧
      (∀ (c w : Int), buf.getD info.storage_index none = some c →
        c < w →
        (DoAdvanceValue buf info (some w)).getD info.storage_index none =
          some w) ∧
      (∀ (c w : Int), buf.getD info.storage_index none = some c →
        ¬ c < w →
        (DoAdvanceValue buf info (some w)).getD info.storage_index none =
          some c) ∧
      (∀ c : Int, buf.getD info.storage_index none = some c →
        (DoAdvanceValue buf info none).getD info.storage_index none =
          some c)) ∧
    runGlobal [⟨.AggregateMin, .Integer, some 0, false⟩]
      [[some 5], [none], [some 2], [some 8]] = some [some 2] ∧
    runGlobal [⟨.AggregateMax, .Integer, some 0, false⟩]
      [[some 5], [none], [some 2], [some 8]] = some [some 8] := by
  refine ⟨?_, ?_, ?_, rfl, rfl⟩
  · intro buf info v hk
    refine ⟨?_, ?_, ?_⟩
    · intro hnull hlt
      unfold DoAdvanceValue
      rw [hk, hnull]
      exact getD_set_self _ hlt
    · intro c hstored
      have hlt := getD_some_lt hstored
      unfold DoAdvanceValue
      rw [hk, hstored]
      exact getD_set_self _ hlt
    · unfold DoAdvanceValue
      rw [hk]
      have hcur : advanceOne .AggregateSum
          (buf.getD info.storage_index none) none =
          buf.getD info.storage_index none := by
        cases hcv : buf.getD info.storage_index none <;> rfl
      rw [hcur]
      exact set_getD_self buf info.storage_index
  · intro buf info hk
    refine ⟨?_, ?_, ?_, ?_⟩
    · intro v hnull hlt
      unfold DoAdvanceValue
      rw [hk, hnull]
      exact getD_set_self _ hlt
    · intro c w hstored hw
      have hlt := getD_some_lt hstored
      unfold DoAdvanceValue
      rw [hk, hstored]
      have : advanceOne .AggregateMin (some c) (some w) = some w := by
        show (if w < c then some w else some c) = some w
        rw [if_pos hw]
      rw [this]
      exact getD_set_self _ hlt
    · intro c w hstored hw
      have hlt := getD_some_lt hstored
      unfold DoAdvanceValue
      rw [hk, hstored]
      have : advanceOne .AggregateMin (some c) (some w) = some c := by
        show (if w < c then some w else some c) = some c
        rw [if_neg hw]
      rw [this]
      exact getD_set_self _ hlt
    · intro c hstored
      have hlt := getD_some_lt hstored
      unfold DoAdvanceValue
      rw [hk, hstored]
      exact getD_set_self _ hlt
  · intro buf info hk
    refine ⟨?_, ?_, ?_, ?_⟩
    · intro v hnull hlt
      unfold DoAdvanceValue
      rw [hk, hnull]
      exact getD_set_self _ hlt
    · intro c w hstored hw
      have hlt := getD_some_lt hstored
      unfold DoAdvanceValue
      rw [hk, hstored]
      have : advanceOne .AggregateMax (some c) (some w) = some w := by
        show (if c < w then some w else some c) = some w
        rw [if_pos hw]
      rw [this]
      exact getD_set_self _ hlt
    · intro c w hstored hw
      have hlt := getD_some_lt hstored
      unfold DoAdvanceValue
      rw [hk, hstored]
      have : advanceOne .AggregateMax (some c) (some w) = some c := by
        show (if c < w then some w else some c) = some c
        rw [if_neg hw]
      rw [this]
      exact getD_set_self _ hlt
    · intro c hstored
      have hlt := getD_some_lt hstored
      unfold DoAdvanceValue
      rw [hk, hstored]
      exact getD_set_self _ hlt

theorem advance_value_semantics_witness :
    (DoAdvanceValue [none] ⟨.AggregateSum, .Integer, 0, 0, false⟩
        (some 5)).getD 0 none = some 5 ∧
    (DoAdvanceValue [some 5] ⟨.AggregateMin, .Integer, 0, 0, false⟩
        (some 2)).getD 0 none = some 2 :=
  ⟨(advance_value_semantics.1 [none]
      ⟨.AggregateSum, .Integer, 0, 0, false⟩ 5 rfl).1 rfl (by decide),
   (advance_value_semantics.2.1 [some 5]
      ⟨.AggregateMin, .Integer, 0, 0, false⟩ rfl).2.1 5 2 rfl
      (by decide)⟩

/-- C4: `FinalizeValues` computes the result of an AVERAGE term's plan
from its SUM slot value `s` and COUNT slot value `c`: NULL when `s` is
NULL or `c` is 0, else `s / c`; concretely, advancing AVERAGE over
[4, NULL, 6] from the global initialization leaves the internal SUM slot
at 10 and the internal COUNT slot at 2 and finalizes to 5. -/
theorem finalize_average_semantics :
    (∀ (agg : Aggregation) (buf : Buffer) (j s c : Nat),
      agg.term_plans_[j]? = some (.average s c) →
      ((FinalizeValues agg buf).2.2)[j]? =
        some (finalizeVal buf (.average s c))) ∧
    (∀ (buf : Buffer) (s c : Nat), buf.getD s none = none →
      finalizeVal buf (.average s c) = none) ∧
    (∀ (buf : Buffer) (s c : Nat) (sv : Int),
      buf.getD s none = some sv → buf.getD c none = some 0 →
      finalizeVal buf (.average s c) = none) ∧
    (∀ (buf : Buffer) (s c : Nat) (sv cv : Int),
      buf.getD s none = some sv → buf.getD c none = some cv → cv ≠ 0 →
      finalizeVal buf (.average s c) = some (sv / cv)) ∧
    runGlobalBuffer [⟨.AggregateAvg, .Integer, some 0, false⟩]
      [[some 4], [none], [some 6]] = some [some 10, some 2] ∧
    runGlobal [⟨.AggregateAvg, .Integer, some 0, false⟩]
      [[some 4], [none], [some 6]] = some [some 5] ∧
    setupInfos [⟨.AggregateAvg, .Integer, some 0, false⟩] true =
      some [⟨.AggregateSum, .Integer, 0, 0, true⟩,
            ⟨.AggregateCount, countType, 0, 1, true⟩] := by
  refine ⟨?_, ?_, ?_, ?_, rfl, rfl, rfl⟩
  · intro agg buf j s c hp
    rw [FinalizeValues_eq]
    show (agg.term_plans_.map (finalizeVal buf))[j]? = _
    rw [List.getElem?_map, hp]
    rfl
  · intro buf s c hs
    rw [finalizeVal_average, hs]
  · intro buf s c sv hs hc
    rw [finalizeVal_average, hs, hc]
    exact if_pos rfl
  · intro buf s c sv cv hs hc hcv
    rw [finalizeVal_average, hs, hc]
    exact if_neg hcv

theorem finalize_average_semantics_witness :
    finalizeVal [some 10, some 2] (.average 0 1) = some 5 := by
  have := finalize_average_semantics.2.2.2.1 [some 10, some 2] 0 1 10 2
    rfl rfl (by decide)
  simpa using this

/-- C1: in every term list accepted by `Setup`, any two terms that reduce
to a SUM over the same input expression (in particular a SUM term and an
AVERAGE term over the same expression) resolve to the same physical SUM
slot, and no physical slot of AVERAGE kind is ever allocated; concretely,
for SUM and AVERAGE over one expression the physical slots are exactly
one SUM slot and one COUNT slot, shared through the plans, and the total
storage size is the size of one SUM slot plus one COUNT slot. -/
theorem sum_slot_sharing :
    (∀ (terms : List AggTerm) (g : Bool) (agg : Aggregation),
      Setup terms g = .ok agg →
      (∀ (i : Nat) (info : AggregateInfo),
        agg.aggregate_infos_[i]? = some info →
        info.aggregate_type ≠ .AggregateAvg) ∧
      (∀ (j j' : Nat) (t t' : AggTerm) (e : Expr),
        terms[j]? = some t → terms[j']? = some t' →
        sumExprOf t = some e → sumExprOf t' = some e →
        ∃ idx, (agg.term_plans_[j]?).bind planSumIdx = some idx ∧
          (agg.term_plans_[j']?).bind planSumIdx = some idx)) ∧
    (∀ (ty : TypeId) (e : Expr) (d dp : Bool),
      Setup [⟨.AggregateSum, ty, some e, d⟩,
             ⟨.AggregateAvg, ty, some e, dp⟩] false =
        .ok ⟨false,
          [⟨.AggregateSum, ty, 0, 0, false⟩,
           ⟨.AggregateCount, countType, 1, 1, true⟩],
          [.simple .AggregateSum 0, .average 0 1],
          [ty, countType]⟩ ∧
      GetAggregatesStorageSize
        ⟨false,
          [⟨.AggregateSum, ty, 0, 0, false⟩,
           ⟨.AggregateCount, countType, 1, 1, true⟩],
          [.simple .AggregateSum 0, .average 0 1],
          [ty, countType]⟩ = ty.size + countType.size) := by
  constructor
  · intro terms g agg h
    obtain ⟨hplen, hidx, hpok, hshared⟩ := Setup_sound h
    constructor
    · intro i info hi
      exact (hidx i info hi).2.1
    · exact hshared
  · intro ty e d dp
    constructor
    · simp [Setup, setupLoop, processTerm, visibleStep, resolveSlot,
        findSlot]
    · simp [GetAggregatesStorageSize]

theorem sum_slot_sharing_witness :
    Setup [⟨.AggregateSum, .Integer, some 0, false⟩,
           ⟨.AggregateAvg, .Integer, some 0, false⟩] false =
      .ok ⟨false,
        [⟨.AggregateSum, .Integer, 0, 0, false⟩,
         ⟨.AggregateCount, countType, 1, 1, true⟩],
        [.simple .AggregateSum 0, .average 0 1],
        [.Integer, countType]⟩ ∧
    (∃ idx,
      ((([.simple .AggregateSum 0, .average 0 1] :
        List TermPlan))[0]?).bind planSumIdx = some idx ∧
      ((([.simple .AggregateSum 0, .average 0 1] :
        List TermPlan))[1]?).bind planSumIdx = some idx) := by
  constructor
  · rfl
  · exact (sum_slot_sharing.1
      [⟨.AggregateSum, .Integer, some 0, false⟩,
       ⟨.AggregateAvg, .Integer, some 0, false⟩] false
      ⟨false,
        [⟨.AggregateSum, .Integer, 0, 0, false⟩,
         ⟨.AggregateCount, countType, 1, 1, true⟩],
        [.simple .AggregateSum 0, .average 0 1],
        [.Integer, countType]⟩ rfl).2 0 1
      ⟨.AggregateSum, .Integer, some 0, false⟩
      ⟨.AggregateAvg, .Integer, some 0, false⟩ 0 rfl rfl rfl rfl

theorem processTerm_ok_iff (st : SetupState) (src : Nat) (t : AggTerm) :
    (∃ st', processTerm st src t = .ok st') ↔ termWellFormed t = true := by
  cases hk : t.agg_type with
  | AggregateCountStar =>
      simp only [processTerm, termWellFormed, hk]
      cases hex : t.expression <;> simp [hex]
  | AggregateCount =>
      simp only [processTerm, termWellFormed, hk]
      cases hex : t.expression <;> simp [hex]
  | AggregateSum =>
      simp only [processTerm, termWellFormed, hk]
      cases hex : t.expression <;> simp [hex]
  | AggregateMin =>
      simp only [processTerm, termWellFormed, hk]
      cases hex : t.expression <;> simp [hex]
  | AggregateMax =>
      simp only [processTerm, termWellFormed, hk]
      cases hex : t.expression <;> simp [hex]
  | AggregateAvg =>
      simp only [processTerm, termWellFormed, hk]
      cases hex : t.expression <;> simp [hex]

theorem setupLoop_ok_iff :
    ∀ (ts : List AggTerm) (st : SetupState) (src : Nat),
    (∃ st', setupLoop st src ts = .ok st') ↔
      ∀ t ∈ ts, termWellFormed t = true := by
  intro ts
  induction ts with
  | nil =>
      intro st src
      simp [setupLoop]
  | cons t ts ih =>
      intro st src
      simp only [setupLoop]
      cases hp : processTerm st src t with
      | error e =>
          have hwf : ¬ termWellFormed t = true := by
            intro hw
            obtain ⟨st1, h1⟩ := (processTerm_ok_iff st src t).2 hw
            rw [hp] at h1
            cases h1
          simp [List.forall_mem_cons, hwf]
      | ok st1 =>
          have hwf : termWellFormed t = true :=
            (processTerm_ok_iff st src t).1 ⟨st1, hp⟩
          rw [List.forall_mem_cons]
          simp [hwf, ih st1 (src + 1)]

/-- C9: `Setup` succeeds exactly on non-empty term lists in which every
term is well formed (COUNT-STAR has no input expression, every other kind
has one); equivalently, it fails exactly on an empty term list, a term
whose kind requires an input expression but lacks one, or a COUNT-STAR
term that has one — all before any row processing can begin. -/
theorem setup_fails_iff_malformed (terms : List AggTerm) (g : Bool) :
    (∃ agg, Setup terms g = .ok agg) ↔
      (terms ≠ [] ∧ ∀ t ∈ terms, termWellFormed t = true) := by
  unfold Setup
  cases hemp : terms.isEmpty with
  | true =>
      have : terms = [] := List.isEmpty_iff.1 hemp
      simp [this]
  | false =>
      have hne : terms ≠ [] := by
        intro hcon
        rw [hcon] at hemp
        cases hemp
      cases hs : setupLoop ⟨[], [], [], []⟩ 0 terms with
      | error e =>
          have hnall : ¬ ∀ t ∈ terms, termWellFormed t = true := by
            intro hall
            obtain ⟨st', h'⟩ :=
              (setupLoop_ok_iff terms ⟨[], [], [], []⟩ 0).2 hall
            rw [hs] at h'
            cases h'
          simp [hs, hnall]
      | ok st =>
          have hall : ∀ t ∈ terms, termWellFormed t = true :=
            (setupLoop_ok_iff terms ⟨[], [], [], []⟩ 0).1 ⟨st, hs⟩
          simp [hs, hne]
          exact hall

theorem setup_fails_iff_malformed_witness :
    (∃ agg, Setup [⟨.AggregateCount, .Integer, some 0, false⟩]
      true = .ok agg) ∧
    ¬ (∃ agg, Setup [⟨.AggregateCount, .Integer, none, false⟩]
      true = .ok agg) := by
  constructor
  · exact (setup_fails_iff_malformed
      [⟨.AggregateCount, .Integer, some 0, false⟩] true).2
      ⟨(by decide), (by decide)⟩
  · intro hok
    have := (setup_fails_iff_malformed
      [⟨.AggregateCount, .Integer, none, false⟩] true).1 hok
    have h2 := this.2 ⟨.AggregateCount, .Integer, none, false⟩ (by simp)
    cases h2

end Peloton
